import Mathlib

/-!
Verification of the lease (file-reservation) coordination engine and the
durable archive writer of `mcp_agent_mail`, shallowly embedded from
`src/mcp_agent_mail/app.py` and `src/mcp_agent_mail/storage.py`.

Conventions of the embedding:
* machine timestamps are `Int` (epoch seconds);
* database rows are Lean structures; a result set is a `List`;
* the filesystem / git working tree is an association list from path to
  content, looked up by first match;
* Python's `fnmatch.fnmatchcase` is embedded as an executable glob matcher
  (`fnmatchcase`), following the translation performed by the stdlib
  (`*`, `?`, `[...]` classes with `!` negation and `-` ranges, a leading
  `]` taken literally, an unterminated `[` matched literally).
-/

namespace AgentMail

/-! ### Glob matching, modelling Python `fnmatch.fnmatchcase` -/

/-- Scan a character-class body up to the closing `]`.
Returns the content before the `]` and the remainder after it, or `none`
when the class is unterminated. -/
def spanUntilRB : List Char → Option (List Char × List Char)
  | [] => none
  | c :: cs =>
    if c = ']' then some ([], cs)
    else (spanUntilRB cs).map fun pr => (c :: pr.1, pr.2)

/-- Parse the inside of a `[...]` pattern element (the list starts just after
the `[`). Mirrors `fnmatch.translate`: an optional leading `!` negates, the
first content character is consumed unconditionally (so `[]]` is the class
containing `]`), and a missing closing `]` yields `none` (the `[` is then a
literal). Returns `(negated, class characters, rest of pattern)`. -/
def parseBracket (ps : List Char) : Option (Bool × List Char × List Char) :=
  let inner := match ps with
    | '!' :: rest => (true, rest)
    | _ => (false, ps)
  match inner.2 with
  | [] => none
  | b :: brest =>
    match spanUntilRB brest with
    | none => none
    | some (content, after) => some (inner.1, b :: content, after)

/-- Does character `c` belong to the (non-negated) class described by
`items`?  `a-b` denotes the inclusive code-point range; an empty range
(`a > b`) matches nothing, and a `-` that cannot form a range is literal —
exactly the behaviour of the regex `fnmatch.translate` produces. -/
def setMatches : List Char → Char → Bool
  | [], _ => false
  | a :: '-' :: b :: rest, c => (a ≤ c ∧ c ≤ b : Bool) || setMatches rest c
  | a :: rest, c => a = c || setMatches rest c

/-- One element of a translated glob pattern. -/
inductive Tok where
  | star
  | any
  | lit (c : Char)
  | cls (neg : Bool) (items : List Char)
deriving DecidableEq, Repr

/-- Pattern translation (the analogue of `fnmatch.translate`), written with
explicit fuel so that the definition is structural and computable. Every
step consumes at least one pattern character, so fuel `p.length` is always
sufficient; the fuel-exhaustion branch is unreachable from `translate`. -/
def translateAux : Nat → List Char → List Tok
  | _, [] => []
  | 0, _ :: _ => []
  | Nat.succ f, '*' :: ps => Tok.star :: translateAux f ps
  | Nat.succ f, '?' :: ps => Tok.any :: translateAux f ps
  | Nat.succ f, '[' :: ps =>
    (match parseBracket ps with
     | none => Tok.lit '[' :: translateAux f ps
     | some (neg, items, after) => Tok.cls neg items :: translateAux f after)
  | Nat.succ f, c :: ps => Tok.lit c :: translateAux f ps

def translate (p : List Char) : List Tok := translateAux p.length p

/-- Match a translated pattern against a string. `star` matches any
(possibly empty) sequence of characters — the `(?s:...)` regex produced by
`fnmatch` lets `.` cross newlines, and no character is special. -/
def tokMatch : List Tok → List Char → Bool
  | [], s => s.isEmpty
  | Tok.star :: ts, s => s.tails.any fun t => tokMatch ts t
  | Tok.any :: ts, s =>
    (match s with
     | [] => false
     | _ :: s2 => tokMatch ts s2)
  | Tok.lit c :: ts, s =>
    (match s with
     | [] => false
     | d :: s2 => c = d && tokMatch ts s2)
  | Tok.cls neg items :: ts, s =>
    (match s with
     | [] => false
     | d :: s2 => (neg != setMatches items d) && tokMatch ts s2)

/-- `fnmatch.fnmatchcase(name, pattern)`: does `name` match the glob
`pattern` (case-sensitively, no normalization)? -/
def fnmatchcase (name pattern : String) : Bool :=
  tokMatch (translate pattern.toList) name.toList

/-! ### Lease rows (`Claim` in `app.py`) -/

/-- A row of the `claim` table: project and holder references, the glob
path pattern, the exclusivity flag, and the lifecycle timestamps. -/
structure Claim where
  id : Nat
  project_id : Nat
  agent_id : Nat
  path_pattern : String
  exclusive : Bool
  reason : String
  created_ts : Int
  expires_ts : Int
  released_ts : Option Int
deriving DecidableEq, Repr

/-- `_claims_conflict(existing, candidate_path, candidate_exclusive,
candidate_agent)` from `app.py`: released rows never conflict, a holder
never conflicts with itself, two shared leases never conflict, and
otherwise the two patterns must overlap (symmetric glob match or string
equality). -/
def claimsConflict (existing : Claim) (candidatePath : String)
    (candidateExclusive : Bool) (candidateAgentId : Nat) : Bool :=
  if existing.released_ts.isSome then false
  else if existing.agent_id = candidateAgentId then false
  else if !existing.exclusive && !candidateExclusive then false
  else
    fnmatchcase candidatePath existing.path_pattern
    || fnmatchcase existing.path_pattern candidatePath
    || existing.path_pattern = candidatePath

/-! ### The `claim_paths` batch loop (`app.py`) -/

/-- One entry of a conflict report: the holder recorded for a rejected
path (`agent`, `path_pattern`, `exclusive`, `expires_ts` in the tool's
response). -/
structure HolderInfo where
  agent : String
  path_pattern : String
  exclusive : Bool
  expires_ts : Int
deriving DecidableEq, Repr

/-- One granted entry of the `claim_paths` response. -/
structure GrantInfo where
  id : Nat
  path_pattern : String
  exclusive : Bool
  reason : String
  expires_ts : Int
deriving DecidableEq, Repr

/-- One conflicted entry of the `claim_paths` response. -/
structure ConflictInfo where
  path : String
  holders : List HolderInfo
deriving DecidableEq, Repr

/-- The request-independent parameters of one `claim_paths` call: the
project, the requesting agent (id and display name), the exclusivity flag,
the reason, the current time, and the requested ttl. -/
structure BatchArgs where
  project_id : Nat
  agent_id : Nat
  agent_name : String
  exclusive : Bool
  reason : String
  now : Int
  ttl_seconds : Int
deriving Repr

/-- The loop state of `claim_paths`: the active rows the conflict check
runs against (`existing_claims`, each paired with its holder's name), the
accumulated `granted` and `conflicts` response lists, and the next
database id. -/
structure BatchState where
  existing : List (Claim × String)
  granted : List GrantInfo
  conflicts : List ConflictInfo
  nextId : Nat
deriving Repr

/-- The lease `_create_claim` persists for a granted path:
`expires_ts = now + ttl_seconds`, `released_ts` null. -/
def newClaim (a : BatchArgs) (nid : Nat) (path : String) : Claim :=
  { id := nid, project_id := a.project_id, agent_id := a.agent_id,
    path_pattern := path, exclusive := a.exclusive, reason := a.reason,
    created_ts := a.now, expires_ts := a.now + a.ttl_seconds,
    released_ts := none }

/-- The holder record `claim_paths` appends to `conflicting_holders` for a
matching existing claim. -/
def holderOf (ec : Claim × String) : HolderInfo :=
  { agent := ec.2, path_pattern := ec.1.path_pattern,
    exclusive := ec.1.exclusive, expires_ts := ec.1.expires_ts }

/-- The body of the `for path in paths` loop of `claim_paths`: collect the
holders of conflicting existing claims; on conflict append a conflict
entry and move on, otherwise create and persist the lease, record the
grant, and append the new lease to `existing_claims` so later paths in the
same batch are checked against it. -/
def processPath (a : BatchArgs) (st : BatchState) (path : String) : BatchState :=
  let holders :=
    (st.existing.filter fun ec =>
      claimsConflict ec.1 path a.exclusive a.agent_id).map holderOf
  if holders.isEmpty then
    let c := newClaim a st.nextId path
    { existing := st.existing ++ [(c, a.agent_name)],
      granted := st.granted ++
        [⟨c.id, c.path_pattern, c.exclusive, c.reason, c.expires_ts⟩],
      conflicts := st.conflicts,
      nextId := st.nextId + 1 }
  else
    { st with conflicts := st.conflicts ++ [⟨path, holders⟩] }

/-- The whole `claim_paths` batch: fold the loop body over the requested
paths in order, starting from the active rows loaded by the initial query. -/
def claimPaths (a : BatchArgs) (existing : List (Claim × String))
    (nextId : Nat) (paths : List String) : BatchState :=
  paths.foldl (processPath a) ⟨existing, [], [], nextId⟩

/-- Modelled from the spec (§4.1/§4.2 wording): the overlap approximation
and the per-path conflict rule — different holder, at least one side
exclusive, overlapping patterns — evaluated against the currently active
set. Used as the specification side of the refinement proof for the batch
loop. -/
def overlapSpec (a b : String) : Bool :=
  fnmatchcase b a || fnmatchcase a b || a = b

/-- Modelled from the spec: holders conflicting with a candidate request,
per the three-clause conflict rule. -/
def specHolders (active : List (Claim × String)) (path : String)
    (excl : Bool) (aid : Nat) : List HolderInfo :=
  (active.filter fun ec =>
    !(ec.1.agent_id = aid) && (ec.1.exclusive || excl)
      && overlapSpec ec.1.path_pattern path).map holderOf

/-- Modelled from the spec (§4.2): process paths in order; for each path
recompute conflicts against the set of leases active as of that moment —
including leases granted earlier in the same batch; on conflict record the
holders and continue; on success persist the lease and make it visible to
the next path's check. -/
def leaseRequestSpec (a : BatchArgs) :
    List (Claim × String) → Nat → List String → List GrantInfo × List ConflictInfo
  | _, _, [] => ([], [])
  | active, nid, p :: rest =>
    let holders := specHolders active p a.exclusive a.agent_id
    if holders.isEmpty then
      let c := newClaim a nid p
      let tail := leaseRequestSpec a (active ++ [(c, a.agent_name)]) (nid + 1) rest
      (⟨c.id, c.path_pattern, c.exclusive, c.reason, c.expires_ts⟩ :: tail.1, tail.2)
    else
      let tail := leaseRequestSpec a active nid rest
      (tail.1, ⟨p, holders⟩ :: tail.2)

/-- The requesting agent of the worked batch example: agent 1 ("green"),
exclusive request, at time 0 with ttl 50. -/
def exArgsGreen : BatchArgs :=
  { project_id := 1, agent_id := 1, agent_name := "green", exclusive := true,
    reason := "migration work", now := 0, ttl_seconds := 50 }

/-- An active exclusive lease held by a different agent (2, "blue") on the
pattern `src/*.py`, expiring at 100. -/
def exClaimBlue : Claim :=
  { id := 5, project_id := 1, agent_id := 2, path_pattern := "src/*.py",
    exclusive := true, reason := "", created_ts := 0, expires_ts := 100,
    released_ts := none }

/-! ### Lease expiry, release and the active listings (`app.py`) -/

/-- `_expire_stale_claims(project_id)`: bulk-set `released_ts = now` on
every row of the project whose `released_ts` is still null and whose
`expires_ts < now`. Touches only the lease table, never the archive. -/
def expireStale (pid : Nat) (now : Int) (rows : List Claim) : List Claim :=
  rows.map fun c =>
    if c.project_id = pid ∧ c.released_ts = none ∧ c.expires_ts < now then
      { c with released_ts := some now }
    else c

/-- The `release_claims` tool's UPDATE: set `released_ts = now` on the
agent's unreleased rows of the project, restricted to the given ids and/or
path patterns when those lists are non-empty (Python truthiness: `None`
and `[]` both mean "no restriction"). -/
def releaseClaims (pid aid : Nat) (now : Int) (claimIds : List Nat)
    (paths : List String) (rows : List Claim) : List Claim :=
  rows.map fun c =>
    if c.project_id = pid ∧ c.agent_id = aid ∧ c.released_ts = none
        ∧ (claimIds = [] ∨ c.id ∈ claimIds)
        ∧ (paths = [] ∨ c.path_pattern ∈ paths) then
      { c with released_ts := some now }
    else c

/-- The query `claim_paths` loads its `existing_claims` from: unreleased
rows of the project whose `expires_ts` is strictly in the future. -/
def claimPathsActiveQuery (pid : Nat) (now : Int) (rows : List Claim) :
    List Claim :=
  rows.filter fun c =>
    c.project_id = pid ∧ c.released_ts = none ∧ now < c.expires_ts

/-- The `claims_resource` query with `active_only = true`: the project's
rows whose `released_ts` is null — with no condition on `expires_ts`. -/
def claimsResourceActive (pid : Nat) (rows : List Claim) : List Claim :=
  rows.filter fun c => c.project_id = pid ∧ c.released_ts = none

/-- The active-lease listing as `claim_paths` performs it: expire the
stale rows, then run the active query (idealized to one instant `now`). -/
def listActiveClaimPaths (pid : Nat) (now : Int) (rows : List Claim) :
    List Claim :=
  claimPathsActiveQuery pid now (expireStale pid now rows)

/-- The active-lease listing as the claims resource performs it: expire
the stale rows, then keep the unreleased ones (idealized to one instant
`now`). -/
def listActiveResource (pid : Nat) (now : Int) (rows : List Claim) :
    List Claim :=
  claimsResourceActive pid (expireStale pid now rows)

/-! ### A generic path-keyed store (association list, first match wins) -/

/-- Look a key up in an association list (first binding wins). -/
def storeLookup {α : Type} : List (String × α) → String → Option α
  | [], _ => none
  | (q, d) :: rest, p => if q = p then some d else storeLookup rest p

/-- Insert or overwrite: replace the first binding of the key, or append
a new binding when the key is absent. -/
def storeInsert {α : Type} : List (String × α) → String → α → List (String × α)
  | [], p, c => [(p, c)]
  | (q, d) :: rest, p, c =>
    if q = p then (p, c) :: rest else (q, d) :: storeInsert rest p c

/-- A store is well formed when its keys are distinct (which holds for
every store built with `storeInsert`). -/
def wfStore {α : Type} (fs : List (String × α)) : Prop :=
  (fs.map Prod.fst).Nodup

/-! ### The git archive writer (`storage.py`) -/

/-- Text files keyed by repository-relative path. -/
abbrev Fs := List (String × String)

/-- The repository state the archive writer works with: the working tree,
the git index, the tree of the last commit, and how many commits were
produced so far. -/
structure ArchiveState where
  ws : Fs
  index : Fs
  head : Fs
  commits : Nat
deriving Repr

/-- Do all bindings of `a` agree with what `b` holds at the same path? -/
def fsSubset (a b : Fs) : Bool :=
  a.all fun pc => storeLookup b pc.1 == some pc.2

/-- Extensional equality of two trees (both inclusions). -/
def fsEqB (a b : Fs) : Bool := fsSubset a b && fsSubset b a

/-- Does the working tree still hold exactly what the index recorded, for
every tracked path? -/
def wsMatchesIndex (st : ArchiveState) : Bool :=
  st.index.all fun pc => storeLookup st.ws pc.1 == some pc.2

/-- `repo.is_dirty(index=True, working_tree=True)`: a staged difference
against the last commit, or a working-tree difference against the index. -/
def isDirty (st : ArchiveState) : Bool :=
  !fsEqB st.index st.head || !wsMatchesIndex st

/-- `repo.index.add(rel_paths)`: copy the working-tree content of each
given path into the index (paths are emitted by the writer right after
writing the files, so they exist; a missing path stages nothing). -/
def stagePaths (idx : Fs) (ws : Fs) (paths : List String) : Fs :=
  paths.foldl
    (fun i p =>
      match storeLookup ws p with
      | some c => storeInsert i p c
      | none => i)
    idx

/-- `_commit(repo, settings, message, rel_paths)` from `storage.py`: with
no paths, do nothing; otherwise stage the paths and, only if the
repository is dirty, produce exactly one commit of the staged tree. -/
def gitCommit (st : ArchiveState) (relPaths : List String) : ArchiveState :=
  if relPaths.isEmpty then st
  else
    let st2 := { st with index := stagePaths st.index st.ws relPaths }
    if isDirty st2 then
      { st2 with head := st2.index, commits := st2.commits + 1 }
    else st2

/-- One archive append (the shape shared by `write_message_bundle`,
`write_claim_record` and `write_agent_profile`): write every file of the
batch to the working tree, then call `_commit` once with all of their
paths. -/
def archiveAppend (st : ArchiveState) (files : List (String × String)) :
    ArchiveState :=
  let ws2 := files.foldl (fun w pc => storeInsert w pc.1 pc.2) st.ws
  gitCommit { st with ws := ws2 } (files.map Prod.fst)

/-- Well-formedness of a repository state: distinct keys in each tree. -/
def wfArchive (st : ArchiveState) : Prop :=
  wfStore st.ws ∧ wfStore st.index ∧ wfStore st.head

/-- `_expire_stale_claims` as an operation on the combined state: it
updates lease rows only and leaves the archive untouched (the Python
function performs a single UPDATE and no archive access). -/
def expireStaleOp (pid : Nat) (now : Int)
    (st : ArchiveState × List Claim) : ArchiveState × List Claim :=
  (st.1, expireStale pid now st.2)

/-! ### `ensure_archive` and the advisory lock (`storage.py`) -/

/-- The paths `ensure_archive(settings, slug)` computes: the project
subtree `root/projects/<slug>` and the lock path `root/.archive.lock`
(both under the single global archive root `settings.storage.root`). -/
structure ProjectArchivePaths where
  root : String
  lock_path : String
  repo_root : String
deriving DecidableEq, Repr

/-- `ensure_archive` from `storage.py`, restricted to the paths it
returns. -/
def ensureArchivePaths (storageRoot slug : String) : ProjectArchivePaths :=
  { root := storageRoot ++ "/projects/" ++ slug,
    lock_path := storageRoot ++ "/.archive.lock",
    repo_root := storageRoot }

/-- Outcome of `AsyncFileLock.__aenter__`. -/
inductive LockOutcome where
  | acquired
  | enteredUnlocked
  | raised
deriving DecidableEq, Repr

/-- ASCII lowercasing of a string, character by character (the fragment of
`str.lower()` relevant to comparing against `"test"`). -/
def lowerString (s : String) : String := String.mk (s.data.map Char.toLower)

/-- `(os.environ.get("APP_ENVIRONMENT") or "").lower() == "test"`. -/
def isTestEnv (env : Option String) : Bool :=
  lowerString (env.getD "") = "test"

/-- The acquisition timeout `__aenter__` uses: `0.1` seconds in the test
environment, the configured timeout otherwise. -/
def lockTimeout (env : Option String) (timeoutSeconds : ℚ) : ℚ :=
  if isTestEnv env then 1 / 10 else timeoutSeconds

/-- `AsyncFileLock.__aenter__`: in the test environment a failed
acquisition is swallowed and the guarded section runs without the lock;
in any other environment the failure propagates. `acquireSucceeds` is
whether `SoftFileLock.acquire` returns within the timeout. -/
def asyncFileLockEnter (env : Option String) (acquireSucceeds : Bool) :
    LockOutcome :=
  if isTestEnv env then
    if acquireSucceeds then .acquired else .enteredUnlocked
  else
    if acquireSucceeds then .acquired else .raised

/-! ### The attachment store (`_store_image` in `storage.py`) -/

/-- The side manifest `_store_image` writes for a digest. -/
structure Manifest where
  sha1 : String
  webp_path : String
  bytes_webp : Nat
  width : Nat
  height : Nat
  original_path : Option String
  bytes_original : Nat
  original_ext : String
deriving DecidableEq, Repr

/-- One line of the per-digest append-only audit log. -/
structure AuditEvent where
  event : String
  webp_path : String
  bytes_webp : Nat
  original_path : Option String
  bytes_original : Nat
  ext : String
deriving DecidableEq, Repr

/-- The attachment area of one project archive. The four directories
(`attachments/<shard>/`, `attachments/originals/`, `attachments/_manifests/`,
`attachments/_audit/`) are disjoint, so each is a store keyed by the
content digest. -/
structure AttachmentStore where
  blobs : List (String × List Nat)
  originals : List (String × List Nat)
  manifests : List (String × Manifest)
  audits : List (String × List AuditEvent)
deriving Repr

/-- The archive-relative blob path `attachments/<digest[0:2]>/<digest>.webp`. -/
def attachmentBlobPath (root digest : String) : String :=
  root ++ "/attachments/" ++ (digest.toList.take 2).asString ++ "/" ++ digest ++ ".webp"

/-- `path.suffix.lower().lstrip(".") or "bin"`. -/
def originalExtOf (suffix : String) : String :=
  let stripped := ((lowerString suffix).toList.dropWhile fun c => c = '.').asString
  if stripped = "" then "bin" else stripped

/-- The archive-relative path of a retained original. -/
def attachmentOriginalPath (root digest suffix : String) : String :=
  root ++ "/attachments/originals/" ++ (digest.toList.take 2).asString ++ "/"
    ++ digest ++ "." ++ originalExtOf suffix

/-- What one `_store_image` call returns to its caller, plus the store it
leaves behind and whether the encoded blob was written by this call. -/
structure StoreOutcome where
  fs : AttachmentStore
  wroteBlob : Bool
  digest : String
  inline : Bool
  bytesWebp : Nat
deriving Repr

/-- `_store_image(archive, path)` from `storage.py`, parametric in the
hash (`hashlib.sha1(data).hexdigest()`), the re-encoder (PIL decode +
WEBP save, a function of the original bytes), and the decoded dimensions.
The digest is computed over the original bytes; the original is retained
once when configured; the encoded blob is written only when absent; the
manifest is (re)written and one audit line is appended on every call; the
inline decision compares the encoded size with the threshold unless the
policy forces a side. -/
def storeImage (hash : List Nat → String) (encodeWebp : List Nat → List Nat)
    (dims : List Nat → Nat × Nat) (keepOriginal : Bool) (inlineMax : Nat)
    (embedPolicy : String) (suffix : String) (root : String)
    (st : AttachmentStore) (data : List Nat) : StoreOutcome :=
  let digest := hash data
  let st1 :=
    if keepOriginal ∧ (storeLookup st.originals digest).isNone then
      { st with originals := storeInsert st.originals digest data }
    else st
  let originalRel :=
    if keepOriginal then some (attachmentOriginalPath root digest suffix)
    else none
  let blobExists := (storeLookup st1.blobs digest).isSome
  let st2 :=
    if blobExists then st1
    else { st1 with blobs := storeInsert st1.blobs digest (encodeWebp data) }
  let newBytes := (storeLookup st2.blobs digest).getD []
  let wh := dims data
  let mf : Manifest :=
    { sha1 := digest, webp_path := attachmentBlobPath root digest,
      bytes_webp := newBytes.length, width := wh.1, height := wh.2,
      original_path := originalRel, bytes_original := data.length,
      original_ext := lowerString suffix }
  let st3 := { st2 with manifests := storeInsert st2.manifests digest mf }
  let prev := (storeLookup st3.audits digest).getD []
  let ev : AuditEvent :=
    { event := "stored", webp_path := attachmentBlobPath root digest,
      bytes_webp := newBytes.length, original_path := originalRel,
      bytes_original := data.length, ext := lowerString suffix }
  let st4 := { st3 with audits := storeInsert st3.audits digest (prev ++ [ev]) }
  let shouldInline :=
    if embedPolicy = "inline" then true
    else if embedPolicy = "file" then false
    else newBytes.length ≤ inlineMax
  { fs := st4, wroteBlob := !blobExists, digest := digest,
    inline := shouldInline, bytesWebp := newBytes.length }

/-- The working tree after the write phase of one archive append. -/
def appendWs (st : ArchiveState) (files : List (String × String)) : Fs :=
  files.foldl (fun w pc => storeInsert w pc.1 pc.2) st.ws

/-- The repository state right after `_commit` has staged the batch but
before it decides whether to commit. -/
def appendStaged (st : ArchiveState) (files : List (String × String)) :
    ArchiveState :=
  { ws := appendWs st files,
    index := stagePaths st.index (appendWs st files) (files.map Prod.fst),
    head := st.head, commits := st.commits }

/-- A lease row on the expiry boundary: unreleased, `expires_ts = 5`. -/
def exClaimBoundary : Claim :=
  { id := 7, project_id := 1, agent_id := 3, path_pattern := "lib/*.rs",
    exclusive := true, reason := "", created_ts := 0, expires_ts := 5,
    released_ts := none }

/-- A `claim_paths` request with a non-positive ttl (`ttl_seconds = -10`)
issued at time 1000. -/
def exArgsNegTtl : BatchArgs :=
  { project_id := 1, agent_id := 1, agent_name := "green", exclusive := true,
    reason := "", now := 1000, ttl_seconds := -10 }

end AgentMail

namespace AgentMail

lemma claimsConflict_eq_spec (c : Claim) (p : String) (x : Bool) (aid : Nat)
    (h : c.released_ts = none) :
    claimsConflict c p x aid =
      (!(c.agent_id = aid) && (c.exclusive || x) && overlapSpec c.path_pattern p) := by
  unfold claimsConflict overlapSpec
  rw [h]
  simp only [Option.isSome_none, Bool.false_eq_true, if_false]
  by_cases ha : c.agent_id = aid
  · simp [ha]
  · cases hx : c.exclusive <;> cases hy : x <;> simp [ha, hx, hy]

lemma loop_granted_conflicts (a : BatchArgs) :
    ∀ (paths : List String) (active : List (Claim × String)) (nid : Nat)
      (g : List GrantInfo) (cf : List ConflictInfo),
      (∀ ec ∈ active, ec.1.released_ts = none) →
      (paths.foldl (processPath a) ⟨active, g, cf, nid⟩).granted
          = g ++ (leaseRequestSpec a active nid paths).1
        ∧ (paths.foldl (processPath a) ⟨active, g, cf, nid⟩).conflicts
          = cf ++ (leaseRequestSpec a active nid paths).2
  | [], active, nid, g, cf, _ => by simp [leaseRequestSpec]
  | p :: rest, active, nid, g, cf, hinv => by
    have hfilter :
        active.filter (fun ec => claimsConflict ec.1 p a.exclusive a.agent_id)
          = active.filter (fun ec =>
              !(ec.1.agent_id = a.agent_id) && (ec.1.exclusive || a.exclusive)
                && overlapSpec ec.1.path_pattern p) := by
      apply List.filter_congr
      intro ec hec
      rw [claimsConflict_eq_spec ec.1 p a.exclusive a.agent_id (hinv ec hec)]
    simp only [List.foldl_cons, leaseRequestSpec, processPath, hfilter]
    by_cases hemp :
        ((active.filter fun ec =>
            !(ec.1.agent_id = a.agent_id) && (ec.1.exclusive || a.exclusive)
              && overlapSpec ec.1.path_pattern p).map holderOf).isEmpty
    · have hinv2 : ∀ ec ∈ active ++ [(newClaim a nid p, a.agent_name)],
          ec.1.released_ts = none := by
        intro ec hec
        rcases List.mem_append.mp hec with h1 | h2
        · exact hinv ec h1
        · simp at h2; subst h2; rfl
      have ih := loop_granted_conflicts a rest
        (active ++ [(newClaim a nid p, a.agent_name)]) (nid + 1)
        (g ++ [⟨(newClaim a nid p).id, (newClaim a nid p).path_pattern,
          (newClaim a nid p).exclusive, (newClaim a nid p).reason,
          (newClaim a nid p).expires_ts⟩]) cf hinv2
      simp [specHolders, hemp, ih.1, ih.2]
    · have ih := loop_granted_conflicts a rest active nid g
        (cf ++ [⟨p, (active.filter fun ec =>
          !(ec.1.agent_id = a.agent_id) && (ec.1.exclusive || a.exclusive)
            && overlapSpec ec.1.path_pattern p).map holderOf⟩]) hinv
      simp [specHolders, hemp, ih.1, ih.2]

/-- C2: the `claim_paths` batch loop refines the specification recursion —
paths are processed in order, each path's conflict check runs against the
active set as of that moment including leases granted earlier in the same
batch, a conflicted path is reported with its holders' identity, pattern
and expiry while processing continues; and a concrete batch returns both a
granted and a conflicted entry. -/
theorem claim_paths_batch_spec :
    (∀ (a : BatchArgs) (existing : List (Claim × String)) (nid : Nat)
        (paths : List String),
      (∀ ec ∈ existing, ec.1.released_ts = none) →
      (claimPaths a existing nid paths).granted
          = (leaseRequestSpec a existing nid paths).1
        ∧ (claimPaths a existing nid paths).conflicts
          = (leaseRequestSpec a existing nid paths).2)
    ∧ (claimPaths exArgsGreen [(exClaimBlue, "blue")] 10
          ["src/app.py", "docs/readme.md"]).granted
        = [⟨10, "docs/readme.md", true, "migration work", 50⟩]
    ∧ (claimPaths exArgsGreen [(exClaimBlue, "blue")] 10
          ["src/app.py", "docs/readme.md"]).conflicts
        = [⟨"src/app.py", [⟨"blue", "src/*.py", true, 100⟩]⟩] := by
  refine ⟨fun a existing nid paths hinv => ?_, by decide, by decide⟩
  have h := loop_granted_conflicts a paths existing nid [] [] hinv
  simpa [claimPaths] using h

/-- Witness for C2 at a concrete input. -/
theorem claim_paths_batch_spec_witness :
    (claimPaths exArgsGreen [(exClaimBlue, "blue")] 10 ["src/app.py"]).granted
        = (leaseRequestSpec exArgsGreen [(exClaimBlue, "blue")] 10 ["src/app.py"]).1
      ∧ (claimPaths exArgsGreen [(exClaimBlue, "blue")] 10 ["src/app.py"]).conflicts
        = (leaseRequestSpec exArgsGreen [(exClaimBlue, "blue")] 10 ["src/app.py"]).2 :=
  claim_paths_batch_spec.1 exArgsGreen [(exClaimBlue, "blue")] 10 ["src/app.py"]
    (by decide)

end AgentMail

namespace AgentMail

lemma storeLookup_mem {α : Type} (fs : List (String × α)) (p : String) (c : α)
    (h : storeLookup fs p = some c) : (p, c) ∈ fs := by
  induction fs with
  | nil => simp [storeLookup] at h
  | cons hd tl ih =>
    obtain ⟨q, d⟩ := hd
    rw [storeLookup] at h
    by_cases hq : q = p
    · simp [hq] at h
      simp [hq, h]
    · simp [hq] at h
      exact List.mem_cons_of_mem _ (ih h)

lemma wf_lookup_eq_of_mem {α : Type} (fs : List (String × α)) (p : String) (c : α)
    (hwf : wfStore fs) (h : (p, c) ∈ fs) : storeLookup fs p = some c := by
  induction fs with
  | nil => simp at h
  | cons hd tl ih =>
    obtain ⟨q, d⟩ := hd
    rcases List.mem_cons.mp h with h1 | h2
    · rw [Prod.mk.injEq] at h1
      rw [storeLookup, h1.1.symm, if_pos rfl, h1.2]
    · have hq : q ≠ p := by
        intro hqp
        subst hqp
        have : q ∈ tl.map Prod.fst := List.mem_map.mpr ⟨(q, c), h2, rfl⟩
        exact (List.nodup_cons.mp hwf).1 this
      rw [storeLookup, if_neg hq]
      exact ih (List.nodup_cons.mp hwf).2 h2

lemma storeInsert_self {α : Type} (fs : List (String × α)) (p : String) (c : α)
    (h : storeLookup fs p = some c) : storeInsert fs p c = fs := by
  induction fs with
  | nil => simp [storeLookup] at h
  | cons hd tl ih =>
    obtain ⟨q, d⟩ := hd
    rw [storeLookup] at h
    by_cases hq : q = p
    · simp [hq] at h
      rw [storeInsert, if_pos hq, hq, h]
    · simp [hq] at h
      rw [storeInsert, if_neg hq, ih h]

lemma storeLookup_insert {α : Type} (fs : List (String × α)) (p : String) (c : α) :
    storeLookup (storeInsert fs p c) p = some c := by
  induction fs with
  | nil => simp [storeInsert, storeLookup]
  | cons hd tl ih =>
    obtain ⟨q, d⟩ := hd
    rw [storeInsert]
    by_cases hq : q = p
    · rw [if_pos hq, storeLookup, if_pos rfl]
    · rw [if_neg hq, storeLookup, if_neg hq]
      exact ih

lemma storeLookup_insert_ne {α : Type} (fs : List (String × α)) (p q : String) (c : α)
    (h : q ≠ p) : storeLookup (storeInsert fs p c) q = storeLookup fs q := by
  induction fs with
  | nil => simp [storeInsert, storeLookup, Ne.symm h]
  | cons hd tl ih =>
    obtain ⟨q2, d⟩ := hd
    rw [storeInsert]
    by_cases hq : q2 = p
    · rw [if_pos hq]
      subst hq
      simp [storeLookup, Ne.symm h]
    · rw [if_neg hq, storeLookup, storeLookup]
      by_cases hq2 : q2 = q
      · rw [if_pos hq2, if_pos hq2]
      · rw [if_neg hq2, if_neg hq2]
        exact ih

lemma mem_keys_insert {α : Type} (fs : List (String × α)) (p q : String) (c : α)
    (h : q ∈ (storeInsert fs p c).map Prod.fst) :
    q = p ∨ q ∈ fs.map Prod.fst := by
  induction fs with
  | nil =>
    simp [storeInsert] at h
    exact Or.inl h
  | cons hd tl ih =>
    obtain ⟨q2, d⟩ := hd
    rw [storeInsert] at h
    by_cases hq : q2 = p
    · rw [if_pos hq] at h
      simp only [List.map_cons, List.mem_cons] at h ⊢
      rcases h with h1 | h2
      · exact Or.inl h1
      · exact Or.inr (Or.inr h2)
    · rw [if_neg hq] at h
      simp only [List.map_cons, List.mem_cons] at h ⊢
      rcases h with h1 | h2
      · exact Or.inr (Or.inl h1)
      · rcases ih h2 with h3 | h4
        · exact Or.inl h3
        · exact Or.inr (Or.inr h4)

lemma wf_insert {α : Type} (fs : List (String × α)) (p : String) (c : α)
    (hwf : wfStore fs) : wfStore (storeInsert fs p c) := by
  induction fs with
  | nil => simp [storeInsert, wfStore]
  | cons hd tl ih =>
    obtain ⟨q, d⟩ := hd
    rw [wfStore] at hwf ⊢
    rw [storeInsert]
    by_cases hq : q = p
    · subst hq
      simpa using hwf
    · rw [if_neg hq]
      simp only [List.map_cons, List.nodup_cons] at hwf ⊢
      refine ⟨fun hmem => ?_, ih hwf.2⟩
      rcases mem_keys_insert tl p q c hmem with h1 | h2
      · exact hq h1
      · exact hwf.1 h2

end AgentMail

namespace AgentMail

lemma foldl_insert_lookup_notin {α : Type} (files : List (String × α))
    (ws : List (String × α)) (p : String)
    (h : ∀ pc ∈ files, pc.1 ≠ p) :
    storeLookup (files.foldl (fun w pc => storeInsert w pc.1 pc.2) ws) p
      = storeLookup ws p := by
  induction files generalizing ws with
  | nil => rfl
  | cons f rest ih =>
    rw [List.foldl_cons, ih _ (fun pc hpc => h pc (List.mem_cons_of_mem _ hpc))]
    exact storeLookup_insert_ne ws f.1 p f.2 (Ne.symm (h f (List.mem_cons_self _ _)))

lemma foldl_insert_lookup_mem {α : Type} (files : List (String × α))
    (ws : List (String × α)) (hnd : (files.map Prod.fst).Nodup)
    (pc : String × α) (h : pc ∈ files) :
    storeLookup (files.foldl (fun w pc => storeInsert w pc.1 pc.2) ws) pc.1
      = some pc.2 := by
  induction files generalizing ws with
  | nil => simp at h
  | cons f rest ih =>
    simp only [List.map_cons, List.nodup_cons] at hnd
    rcases List.mem_cons.mp h with h1 | h2
    · subst h1
      rw [List.foldl_cons,
        foldl_insert_lookup_notin rest _ pc.1
          (fun qc hqc hq => hnd.1 (List.mem_map.mpr ⟨qc, hqc, hq⟩)),
        storeLookup_insert]
    · rw [List.foldl_cons]
      exact ih _ hnd.2 h2

lemma foldl_insert_id {α : Type} (files : List (String × α))
    (ws : List (String × α))
    (h : ∀ pc ∈ files, storeLookup ws pc.1 = some pc.2) :
    files.foldl (fun w pc => storeInsert w pc.1 pc.2) ws = ws := by
  induction files with
  | nil => rfl
  | cons f rest ih =>
    rw [List.foldl_cons, storeInsert_self _ _ _ (h f (List.mem_cons_self _ _))]
    exact ih (fun pc hpc => h pc (List.mem_cons_of_mem _ hpc))

lemma wf_foldl_insert {α : Type} (files : List (String × α))
    (ws : List (String × α)) (hwf : wfStore ws) :
    wfStore (files.foldl (fun w pc => storeInsert w pc.1 pc.2) ws) := by
  induction files generalizing ws with
  | nil => exact hwf
  | cons f rest ih =>
    rw [List.foldl_cons]
    exact ih _ (wf_insert _ _ _ hwf)

lemma stage_cons (idx ws : Fs) (k : String) (rest : List String) :
    stagePaths idx ws (k :: rest)
      = stagePaths
          (match storeLookup ws k with
           | some c => storeInsert idx k c
           | none => idx) ws rest := rfl

lemma stage_lookup_notin (keys : List String) (idx ws : Fs) (p : String)
    (h : p ∉ keys) :
    storeLookup (stagePaths idx ws keys) p = storeLookup idx p := by
  induction keys generalizing idx with
  | nil => rfl
  | cons k rest ih =>
    have hk : p ≠ k := fun hpk => h (hpk ▸ List.mem_cons_self _ _)
    have hrest : p ∉ rest := fun hm => h (List.mem_cons_of_mem _ hm)
    rw [stage_cons]
    rcases hws : storeLookup ws k with _ | c
    · simp only [hws]
      exact ih idx hrest
    · simp only [hws]
      rw [ih _ hrest, storeLookup_insert_ne idx k p c hk]

lemma stage_lookup_mem (keys : List String) (idx ws : Fs)
    (hnd : keys.Nodup) (p : String) (c : String)
    (hp : p ∈ keys) (hw : storeLookup ws p = some c) :
    storeLookup (stagePaths idx ws keys) p = some c := by
  induction keys generalizing idx with
  | nil => simp at hp
  | cons k rest ih =>
    rw [List.nodup_cons] at hnd
    rw [stage_cons]
    rcases List.mem_cons.mp hp with h1 | h2
    · subst h1
      simp only [hw]
      rw [stage_lookup_notin rest _ ws p hnd.1, storeLookup_insert]
    · rcases hws : storeLookup ws k with _ | d
      · simp only [hws]
        exact ih idx hnd.2 h2
      · simp only [hws]
        exact ih _ hnd.2 h2

lemma stage_id (keys : List String) (idx ws : Fs)
    (h : ∀ p ∈ keys, ∃ c, storeLookup ws p = some c ∧ storeLookup idx p = some c) :
    stagePaths idx ws keys = idx := by
  induction keys with
  | nil => rfl
  | cons k rest ih =>
    obtain ⟨c, hwk, hik⟩ := h k (List.mem_cons_self _ _)
    rw [stage_cons]
    simp only [hwk]
    rw [storeInsert_self _ _ _ hik]
    exact ih (fun p hp => h p (List.mem_cons_of_mem _ hp))

lemma wf_stage (keys : List String) (idx ws : Fs) (hwf : wfStore idx) :
    wfStore (stagePaths idx ws keys) := by
  induction keys generalizing idx with
  | nil => exact hwf
  | cons k rest ih =>
    rw [stage_cons]
    rcases hws : storeLookup ws k with _ | c
    · simp only [hws]
      exact ih idx hwf
    · simp only [hws]
      exact ih _ (wf_insert _ _ _ hwf)

lemma fsSubset_lookup (a b : Fs) (p : String) (c : String)
    (h : fsSubset a b = true) (hm : storeLookup a p = some c) :
    storeLookup b p = some c := by
  have hmem := storeLookup_mem a p c hm
  rw [fsSubset, List.all_eq_true] at h
  simpa using h (p, c) hmem

lemma fsEqB_refl_of_wf (a : Fs) (h : wfStore a) : fsEqB a a = true := by
  rw [fsEqB]
  have hsub : fsSubset a a = true := by
    rw [fsSubset, List.all_eq_true]
    intro pc hpc
    simpa using wf_lookup_eq_of_mem a pc.1 pc.2 h hpc
  rw [hsub]
  rfl

end AgentMail

namespace AgentMail

lemma archive_append_empty (st : ArchiveState) : archiveAppend st [] = st := rfl

lemma archive_append_eq (st : ArchiveState) (files : List (String × String))
    (hne : files ≠ []) :
    archiveAppend st files =
      if isDirty (appendStaged st files) then
        { ws := (appendStaged st files).ws,
          index := (appendStaged st files).index,
          head := (appendStaged st files).index,
          commits := st.commits + 1 }
      else appendStaged st files := by
  have hk : (files.map Prod.fst).isEmpty = false := by
    cases files with
    | nil => exact absurd rfl hne
    | cons f rest => rfl
  unfold archiveAppend gitCommit appendStaged appendWs
  simp only [hk, Bool.false_eq_true, if_false]

lemma isDirty_false_iff (st : ArchiveState) :
    isDirty st = false ↔
      (fsEqB st.index st.head = true ∧ wsMatchesIndex st = true) := by
  unfold isDirty
  cases h1 : fsEqB st.index st.head <;> cases h2 : wsMatchesIndex st <;> simp

lemma wsMatchesIndex_spec (st : ArchiveState) (h : wsMatchesIndex st = true)
    (p : String) (c : String) (hm : storeLookup st.index p = some c) :
    storeLookup st.ws p = some c := by
  have hmem := storeLookup_mem _ _ _ hm
  rw [wsMatchesIndex, List.all_eq_true] at h
  simpa using h (p, c) hmem

end AgentMail

namespace AgentMail

lemma fsEqB_spec (a b : Fs) (h : fsEqB a b = true) :
    fsSubset a b = true ∧ fsSubset b a = true := by
  rw [fsEqB, Bool.and_eq_true] at h
  exact h

lemma append_files_written (st : ArchiveState) (files : List (String × String))
    (hnd : (files.map Prod.fst).Nodup) :
    ∀ pc ∈ files,
      storeLookup (archiveAppend st files).ws pc.1 = some pc.2
      ∧ storeLookup (archiveAppend st files).index pc.1 = some pc.2 := by
  intro pc hpc
  have hne : files ≠ [] := by
    intro hnil
    rw [hnil] at hpc
    simp at hpc
  have hws : storeLookup (appendWs st files) pc.1 = some pc.2 :=
    foldl_insert_lookup_mem files st.ws hnd pc hpc
  have hidx : storeLookup (appendStaged st files).index pc.1 = some pc.2 := by
    unfold appendStaged
    exact stage_lookup_mem (files.map Prod.fst) st.index (appendWs st files)
      hnd pc.1 pc.2 (List.mem_map.mpr ⟨pc, hpc, rfl⟩) hws
  rw [archive_append_eq st files hne]
  by_cases hd : isDirty (appendStaged st files)
  · simp only [hd, if_true]
    exact ⟨hws, hidx⟩
  · simp only [hd, Bool.false_eq_true, if_false]
    exact ⟨hws, hidx⟩

lemma append_commits_le (st : ArchiveState) (files : List (String × String)) :
    (archiveAppend st files).commits ≤ st.commits + 1 := by
  by_cases hne : files = []
  · subst hne
    rw [archive_append_empty]
    omega
  · rw [archive_append_eq st files hne]
    by_cases hd : isDirty (appendStaged st files)
    · simp only [hd, if_true]
      omega
    · simp only [hd, Bool.false_eq_true, if_false]
      exact Nat.le_succ _

lemma append_noop_of_clean (st : ArchiveState) (files : List (String × String))
    (hclean : isDirty st = false)
    (hc : ∀ pc ∈ files, storeLookup st.head pc.1 = some pc.2) :
    archiveAppend st files = st := by
  by_cases hne : files = []
  · subst hne
    exact archive_append_empty st
  · obtain ⟨hIH, hWI⟩ := (isDirty_false_iff st).mp hclean
    have hsub2 : fsSubset st.head st.index = true := (fsEqB_spec _ _ hIH).2
    have hidx : ∀ pc ∈ files, storeLookup st.index pc.1 = some pc.2 :=
      fun pc hpc => fsSubset_lookup _ _ _ _ hsub2 (hc pc hpc)
    have hws : ∀ pc ∈ files, storeLookup st.ws pc.1 = some pc.2 :=
      fun pc hpc => wsMatchesIndex_spec st hWI _ _ (hidx pc hpc)
    have hws2 : appendWs st files = st.ws := by
      unfold appendWs
      exact foldl_insert_id files st.ws hws
    have hstage : stagePaths st.index st.ws (files.map Prod.fst) = st.index := by
      apply stage_id
      intro p hp
      rcases List.mem_map.mp hp with ⟨pc, hpc, hfst⟩
      exact ⟨pc.2, hfst ▸ hws pc hpc, hfst ▸ hidx pc hpc⟩
    have hstaged : appendStaged st files = st := by
      unfold appendStaged
      rw [hws2, hstage]
    rw [archive_append_eq st files hne, hstaged, hclean]
    simp

lemma append_head_sup (st : ArchiveState) (files : List (String × String))
    (hnd : (files.map Prod.fst).Nodup) :
    ∀ pc ∈ files, storeLookup (archiveAppend st files).head pc.1 = some pc.2 := by
  intro pc hpc
  have hne : files ≠ [] := by
    intro hnil
    rw [hnil] at hpc
    simp at hpc
  have hidx : storeLookup (appendStaged st files).index pc.1 = some pc.2 := by
    unfold appendStaged
    exact stage_lookup_mem (files.map Prod.fst) st.index (appendWs st files)
      hnd pc.1 pc.2 (List.mem_map.mpr ⟨pc, hpc, rfl⟩)
      (foldl_insert_lookup_mem files st.ws hnd pc hpc)
  rw [archive_append_eq st files hne]
  by_cases hd : isDirty (appendStaged st files)
  · simp only [hd, if_true]
    exact hidx
  · simp only [hd, Bool.false_eq_true, if_false]
    obtain ⟨hIH, _⟩ := (isDirty_false_iff _).mp (by simpa using hd)
    exact fsSubset_lookup _ _ _ _ (fsEqB_spec _ _ hIH).1 hidx

end AgentMail

namespace AgentMail

lemma append_clean (st : ArchiveState) (files : List (String × String))
    (hwfi : wfStore st.index) (hclean : isDirty st = false)
    (hnd : (files.map Prod.fst).Nodup) :
    isDirty (archiveAppend st files) = false := by
  by_cases hne : files = []
  · subst hne
    rw [archive_append_empty]
    exact hclean
  · rw [archive_append_eq st files hne]
    by_cases hd : isDirty (appendStaged st files)
    · simp only [hd, if_true]
      obtain ⟨_, hWI⟩ := (isDirty_false_iff st).mp hclean
      have hwfidx : wfStore (appendStaged st files).index := by
        unfold appendStaged
        exact wf_stage _ _ _ hwfi
      apply (isDirty_false_iff _).mpr
      constructor
      · exact fsEqB_refl_of_wf _ hwfidx
      · rw [wsMatchesIndex, List.all_eq_true]
        intro pc hpc
        have hlk : storeLookup (appendStaged st files).index pc.1 = some pc.2 :=
          wf_lookup_eq_of_mem _ _ _ hwfidx hpc
        by_cases hpk : pc.1 ∈ files.map Prod.fst
        · rcases List.mem_map.mp hpk with ⟨qc, hqc, hfst⟩
          have hws : storeLookup (appendWs st files) qc.1 = some qc.2 :=
            foldl_insert_lookup_mem files st.ws hnd qc hqc
          have hidx : storeLookup (appendStaged st files).index qc.1 = some qc.2 := by
            unfold appendStaged
            exact stage_lookup_mem _ _ _ hnd qc.1 qc.2
              (List.mem_map.mpr ⟨qc, hqc, rfl⟩) hws
          rw [hfst] at hidx hws
          rw [hlk] at hidx
          simp only [Option.some.injEq] at hidx
          simpa [hidx] using hws
        · have hidx2 : storeLookup (appendStaged st files).index pc.1
              = storeLookup st.index pc.1 := by
            unfold appendStaged
            exact stage_lookup_notin _ _ _ _ hpk
          have hold : storeLookup st.index pc.1 = some pc.2 := hidx2 ▸ hlk
          have hwsold : storeLookup st.ws pc.1 = some pc.2 :=
            wsMatchesIndex_spec st hWI _ _ hold
          have hws2 : storeLookup (appendWs st files) pc.1
              = storeLookup st.ws pc.1 := by
            unfold appendWs
            apply foldl_insert_lookup_notin
            intro qc hqc hq
            exact hpk (List.mem_map.mpr ⟨qc, hqc, hq⟩)
          simp only [appendStaged] at *
          rw [hws2, hwsold]
          exact beq_self_eq_true _
    · have hdf : isDirty (appendStaged st files) = false := by simpa using hd
      simp only [hdf, Bool.false_eq_true, if_false]

lemma append_idem (st : ArchiveState) (files : List (String × String))
    (hwfi : wfStore st.index) (hclean : isDirty st = false)
    (hnd : (files.map Prod.fst).Nodup) :
    archiveAppend (archiveAppend st files) files = archiveAppend st files :=
  append_noop_of_clean (archiveAppend st files) files
    (append_clean st files hwfi hclean hnd)
    (append_head_sup st files hnd)

end AgentMail

namespace AgentMail

/-- C3: an archive append writes and stages every file of the batch,
produces at most one commit for the whole batch, is a complete no-op when
the batch content is already committed (byte-identical rewrite on a clean
repository), and repeating the same append is a no-op at the commit
level. -/
theorem archive_append_spec (st : ArchiveState) (files : List (String × String))
    (hnd : (files.map Prod.fst).Nodup) :
    (∀ pc ∈ files,
        storeLookup (archiveAppend st files).ws pc.1 = some pc.2
      ∧ storeLookup (archiveAppend st files).index pc.1 = some pc.2)
    ∧ (archiveAppend st files).commits ≤ st.commits + 1
    ∧ (isDirty st = false →
        (∀ pc ∈ files, storeLookup st.head pc.1 = some pc.2) →
        archiveAppend st files = st)
    ∧ (wfStore st.index → isDirty st = false →
        archiveAppend (archiveAppend st files) files = archiveAppend st files) :=
  ⟨append_files_written st files hnd, append_commits_le st files,
   fun hclean hc => append_noop_of_clean st files hclean hc,
   fun hwfi hclean => append_idem st files hwfi hclean hnd⟩

/-- Witness for C3 at a concrete input: repeating an identical append of
one claim record on a fresh repository is a no-op. -/
theorem archive_append_spec_witness :
    archiveAppend (archiveAppend ⟨[], [], [], 0⟩ [("claims/a.json", "x")])
        [("claims/a.json", "x")]
      = archiveAppend ⟨[], [], [], 0⟩ [("claims/a.json", "x")] :=
  (archive_append_spec ⟨[], [], [], 0⟩ [("claims/a.json", "x")]
    (by decide)).2.2.2 (by exact List.nodup_nil) (by decide)

end AgentMail

namespace AgentMail

/-- C4 counterexample: two distinct project slugs receive the same lock
path from `ensure_archive` — the advisory lock is shared, not
project-scoped. -/
theorem ensure_archive_shared_lock_counterexample :
    (ensureArchivePaths "/srv/archive" "alpha").lock_path
        = (ensureArchivePaths "/srv/archive" "beta").lock_path
      ∧ ("alpha" : String) ≠ "beta" := by
  exact ⟨rfl, by decide⟩

/-- C4 amended: the advisory lock `ensure_archive` hands out is scoped to
the whole archive root, not to the project — every slug yields the single
lock file `<root>/.archive.lock`, so archive writes of distinct projects
are serialized behind the same lock rather than proceeding in parallel. -/
theorem ensure_archive_lock_global (storageRoot slug1 slug2 : String) :
    (ensureArchivePaths storageRoot slug1).lock_path
        = (ensureArchivePaths storageRoot slug2).lock_path
      ∧ (ensureArchivePaths storageRoot slug1).lock_path
        = storageRoot ++ "/.archive.lock" :=
  ⟨rfl, rfl⟩

/-- C5: `claim_paths` performs no ttl validation — a request with
`ttl_seconds = -10` at time 1000 is granted, and a lease row with
`expires_ts = 990` (already in the past) is persisted and added to the
active set, where the spec requires a validation error before any
persistence or lock acquisition. -/
theorem claim_paths_accepts_nonpositive_ttl :
    (claimPaths exArgsNegTtl [] 1 ["app.py"]).granted
        = [⟨1, "app.py", true, "", 990⟩]
      ∧ (claimPaths exArgsNegTtl [] 1 ["app.py"]).existing
        = [(⟨1, 1, 1, "app.py", true, "", 1000, 990, none⟩, "green")]
      ∧ ((990 : Int) < 1000) := by
  refine ⟨by decide, by decide, by decide⟩

/-- C10 counterexample: with `APP_ENVIRONMENT = "TEST"` — which is not the
exact string `"test"` — a failed acquisition is still swallowed and the
guarded section proceeds without the lock, because the code lowercases the
variable before comparing. -/
theorem lock_swallow_case_counterexample :
    asyncFileLockEnter (some "TEST") false = LockOutcome.enteredUnlocked
      ∧ some ("TEST" : String) ≠ some "test" := by
  exact ⟨by decide, by decide⟩

/-- C10 amended: lock acquisition raises on failure iff the environment is
not the test environment, where "test environment" means `APP_ENVIRONMENT`
equals `"test"` after lowercasing; in the test environment the timeout is
0.1 seconds and a failed acquisition enters the guarded section without
the lock. -/
theorem async_lock_enter_amended (env : Option String) (b : Bool) (t : ℚ) :
    (asyncFileLockEnter env b = LockOutcome.raised
        ↔ (isTestEnv env = false ∧ b = false))
      ∧ (asyncFileLockEnter env b = LockOutcome.enteredUnlocked
        ↔ (isTestEnv env = true ∧ b = false))
      ∧ (asyncFileLockEnter env b = LockOutcome.acquired ↔ b = true)
      ∧ lockTimeout env t = (if isTestEnv env then (1 : ℚ) / 10 else t) := by
  unfold asyncFileLockEnter lockTimeout
  cases hb : b <;> cases ht : isTestEnv env <;> simp [ht]

/-- C6 counterexample: a lease expiring exactly at the query instant
(`expires_ts = now = 5`) is returned by the claims resource's active
listing even though its `expires_ts` is not in the future. -/
theorem claims_resource_includes_boundary_expiry :
    listActiveResource 1 5 [exClaimBoundary] = [exClaimBoundary]
      ∧ ¬ ((5 : Int) < exClaimBoundary.expires_ts) := by
  exact ⟨by decide, by decide⟩

/-- C6 amended: a lease whose `expires_ts` is strictly in the past never
appears in either active listing; every lease returned has `released_ts`
null; the `claim_paths` listing further guarantees `expires_ts` strictly
in the future, while the claims resource's active listing only guarantees
`expires_ts ≥ now` (the boundary case is returned). -/
theorem list_active_amended (pid : Nat) (now : Int) (rows : List Claim) :
    (∀ c ∈ listActiveClaimPaths pid now rows,
        c.released_ts = none ∧ now < c.expires_ts)
      ∧ (∀ c ∈ listActiveResource pid now rows,
        c.released_ts = none ∧ now ≤ c.expires_ts)
      ∧ (∀ c ∈ rows, c.expires_ts < now →
        c ∉ listActiveClaimPaths pid now rows
        ∧ c ∉ listActiveResource pid now rows) := by
  have h1 : ∀ c ∈ listActiveClaimPaths pid now rows,
      c.released_ts = none ∧ now < c.expires_ts := by
    intro c hc
    unfold listActiveClaimPaths claimPathsActiveQuery at hc
    have hp := List.of_mem_filter hc
    simp only [decide_eq_true_eq] at hp
    exact ⟨hp.2.1, hp.2.2⟩
  have h2 : ∀ c ∈ listActiveResource pid now rows,
      c.released_ts = none ∧ now ≤ c.expires_ts := by
    intro c hc
    unfold listActiveResource claimsResourceActive at hc
    have hp := List.of_mem_filter hc
    simp only [decide_eq_true_eq] at hp
    have hmem := List.mem_of_mem_filter hc
    unfold expireStale at hmem
    rcases List.mem_map.mp hmem with ⟨d, hd, hdc⟩
    by_cases hcond : d.project_id = pid ∧ d.released_ts = none ∧ d.expires_ts < now
    · rw [if_pos hcond] at hdc
      have : c.released_ts = some now := by rw [← hdc]
      rw [hp.2] at this
      exact absurd this (by simp)
    · rw [if_neg hcond] at hdc
      subst hdc
      refine ⟨hp.2, ?_⟩
      by_contra hlt
      push_neg at hlt
      exact hcond ⟨hp.1, hp.2, hlt⟩
  refine ⟨h1, h2, ?_⟩
  intro c _ hexp
  constructor
  · intro hmem
    have := (h1 c hmem).2
    omega
  · intro hmem
    have := (h2 c hmem).2
    omega

/-- Witness for C6's amended statement at a concrete input. -/
theorem list_active_amended_witness :
    exClaimBoundary.released_ts = none
      ∧ (5 : Int) ≤ exClaimBoundary.expires_ts :=
  (list_active_amended 1 5 [exClaimBoundary]).2.1 exClaimBoundary (by decide)

/-- C7: `mark_expired_batch` sets `released_ts = now` for exactly the
project's rows with `expires_ts < now` and `released_ts` null (pointwise
characterization); a second run with no newly expired leases changes no
row; and the operation never touches the archive, so neither run produces
a commit. -/
theorem mark_expired_batch_spec (pid : Nat) (now1 now2 : Int) (rows : List Claim)
    (hng : ∀ c ∈ rows, c.project_id = pid → c.released_ts = none →
      c.expires_ts < now2 → c.expires_ts < now1) :
    (∀ i : Nat, (expireStale pid now1 rows)[i]?
        = (rows[i]?).map fun c =>
            if c.project_id = pid ∧ c.released_ts = none ∧ c.expires_ts < now1 then
              { c with released_ts := some now1 }
            else c)
      ∧ expireStale pid now2 (expireStale pid now1 rows)
        = expireStale pid now1 rows
      ∧ (∀ st : ArchiveState × List Claim, (expireStaleOp pid now1 st).1 = st.1) := by
  refine ⟨?_, ?_, fun st => rfl⟩
  · intro i
    unfold expireStale
    rw [List.getElem?_map]
  · unfold expireStale
    rw [List.map_map]
    apply List.map_congr_left
    intro c hc
    by_cases hcond : c.project_id = pid ∧ c.released_ts = none ∧ c.expires_ts < now1
    · simp only [Function.comp_apply, if_pos hcond]
      rw [if_neg]
      intro h2
      have : (some now1 : Option Int) = none := h2.2.1
      simp at this
    · simp only [Function.comp_apply, if_neg hcond]
      rw [if_neg]
      intro h2
      exact hcond ⟨h2.1, h2.2.1, hng c hc h2.1 h2.2.1 h2.2.2⟩

/-- Witness for C7 at a concrete input. -/
theorem mark_expired_batch_spec_witness :
    expireStale 1 300 (expireStale 1 200 [exClaimBlue])
      = expireStale 1 200 [exClaimBlue] :=
  (mark_expired_batch_spec 1 200 300 [exClaimBlue] (by decide)).2.1

lemma mark_map_invariant (cond : Claim → Prop) [DecidablePred cond]
    (hcr : ∀ c, cond c → c.released_ts = none) (now : Int) (rows : List Claim)
    (i : Nat) (c c2 : Claim)
    (hc : rows[i]? = some c)
    (hc2 : (rows.map fun d =>
        if cond d then { d with released_ts := some now } else d)[i]? = some c2) :
    (c.released_ts ≠ none → c2 = c)
    ∧ ∃ r, c2 = { c with released_ts := r }
        ∧ (r = c.released_ts ∨ (c.released_ts = none ∧ r = some now)) := by
  rw [List.getElem?_map, hc] at hc2
  simp only [Option.map_some', Option.some.injEq] at hc2
  by_cases hcond : cond c
  · rw [if_pos hcond] at hc2
    subst hc2
    refine ⟨fun hne => absurd (hcr c hcond) hne, some now, rfl, Or.inr ⟨hcr c hcond, rfl⟩⟩
  · rw [if_neg hcond] at hc2
    subst hc2
    exact ⟨fun _ => rfl, c.released_ts, rfl, Or.inl rfl⟩

/-- C8: both lease-mutating operations (expiry marking and release) keep
every row (no deletion: equal lengths), never touch a row whose
`released_ts` is already set, and change at most the `released_ts` field
— and only from null to `some now`. -/
theorem lease_mutation_invariants (pid aid : Nat) (now : Int)
    (claimIds : List Nat) (paths : List String) (rows : List Claim) :
    (expireStale pid now rows).length = rows.length
      ∧ (releaseClaims pid aid now claimIds paths rows).length = rows.length
      ∧ (∀ i : Nat, ∀ c c2 : Claim,
          rows[i]? = some c → (expireStale pid now rows)[i]? = some c2 →
          (c.released_ts ≠ none → c2 = c)
          ∧ ∃ r, c2 = { c with released_ts := r }
              ∧ (r = c.released_ts ∨ (c.released_ts = none ∧ r = some now)))
      ∧ (∀ i : Nat, ∀ c c2 : Claim,
          rows[i]? = some c →
          (releaseClaims pid aid now claimIds paths rows)[i]? = some c2 →
          (c.released_ts ≠ none → c2 = c)
          ∧ ∃ r, c2 = { c with released_ts := r }
              ∧ (r = c.released_ts ∨ (c.released_ts = none ∧ r = some now))) := by
  refine ⟨by unfold expireStale; rw [List.length_map],
    by unfold releaseClaims; rw [List.length_map], ?_, ?_⟩
  · intro i c c2 hc hc2
    exact mark_map_invariant
      (fun d => d.project_id = pid ∧ d.released_ts = none ∧ d.expires_ts < now)
      (fun d h => h.2.1) now rows i c c2 hc hc2
  · intro i c c2 hc hc2
    exact mark_map_invariant
      (fun d => d.project_id = pid ∧ d.agent_id = aid ∧ d.released_ts = none
        ∧ (claimIds = [] ∨ d.id ∈ claimIds) ∧ (paths = [] ∨ d.path_pattern ∈ paths))
      (fun d h => h.2.2.1) now rows i c c2 hc hc2

/-- Witness for C8 at a concrete input. -/
theorem lease_mutation_invariants_witness :
    (exClaimBlue.released_ts ≠ none →
        ({ exClaimBlue with released_ts := some (300 : Int) } : Claim) = exClaimBlue)
      ∧ ∃ r, ({ exClaimBlue with released_ts := some (300 : Int) } : Claim)
            = { exClaimBlue with released_ts := r }
          ∧ (r = exClaimBlue.released_ts
            ∨ (exClaimBlue.released_ts = none ∧ r = some 300)) :=
  (lease_mutation_invariants 1 2 300 [] [] [exClaimBlue]).2.2.1 0 exClaimBlue
    { exClaimBlue with released_ts := some 300 } (by decide) (by decide)

end AgentMail

namespace AgentMail

lemma storeImage_unfold (hash : List Nat → String) (e : List Nat → List Nat)
    (dims : List Nat → Nat × Nat) (keep : Bool) (imax : Nat)
    (pol sfx root : String) (st : AttachmentStore) (data : List Nat) :
    (storeImage hash e dims keep imax pol sfx root st data).digest = hash data
    ∧ (storeImage hash e dims keep imax pol sfx root st data).wroteBlob
        = !(storeLookup st.blobs (hash data)).isSome
    ∧ (storeImage hash e dims keep imax pol sfx root st data).fs.blobs
        = (if (storeLookup st.blobs (hash data)).isSome then st.blobs
           else storeInsert st.blobs (hash data) (e data))
    ∧ (storeImage hash e dims keep imax pol sfx root st data).fs.manifests
        = storeInsert st.manifests (hash data)
            { sha1 := hash data,
              webp_path := attachmentBlobPath root (hash data),
              bytes_webp := ((storeLookup st.blobs (hash data)).getD (e data)).length,
              width := (dims data).1, height := (dims data).2,
              original_path :=
                (if keep then some (attachmentOriginalPath root (hash data) sfx)
                 else none),
              bytes_original := data.length,
              original_ext := lowerString sfx }
    ∧ (storeImage hash e dims keep imax pol sfx root st data).fs.audits
        = storeInsert st.audits (hash data)
            ((storeLookup st.audits (hash data)).getD []
              ++ [{ event := "stored",
                    webp_path := attachmentBlobPath root (hash data),
                    bytes_webp := ((storeLookup st.blobs (hash data)).getD (e data)).length,
                    original_path :=
                      (if keep then some (attachmentOriginalPath root (hash data) sfx)
                       else none),
                    bytes_original := data.length,
                    ext := lowerString sfx }]) := by
  by_cases hA : keep = true ∧ storeLookup st.originals (hash data) = none
  · by_cases hB : (storeLookup st.blobs (hash data)).isSome
    · rcases Option.isSome_iff_exists.mp hB with ⟨b, hb⟩
      simp [storeImage, hA, hb]
    · have hbn : storeLookup st.blobs (hash data) = none :=
        Option.not_isSome_iff_eq_none.mp (by simpa using hB)
      simp [storeImage, hA, hbn, storeLookup_insert]
  · by_cases hB : (storeLookup st.blobs (hash data)).isSome
    · rcases Option.isSome_iff_exists.mp hB with ⟨b, hb⟩
      simp [storeImage, hA, hb]
    · have hbn : storeLookup st.blobs (hash data) = none :=
        Option.not_isSome_iff_eq_none.mp (by simpa using hB)
      simp [storeImage, hA, hbn, storeLookup_insert]

/-- C9: the attachment store hashes the original bytes (the digest equals
the hash of the input and does not depend on the encoder); storing the
same bytes a second time writes no blob (`wroteBlob = false`, the blob map
is unchanged — one blob per hash), while the manifest write and the
audit-log append (one new line) still occur. -/
theorem store_image_dedup_spec (hash : List Nat → String)
    (e1 e2 : List Nat → List Nat) (dims : List Nat → Nat × Nat)
    (keep : Bool) (imax : Nat) (pol sfx root : String)
    (st : AttachmentStore) (data : List Nat) :
    (storeImage hash e1 dims keep imax pol sfx root st data).digest = hash data
    ∧ (storeImage hash e1 dims keep imax pol sfx root st data).digest
        = (storeImage hash e2 dims keep imax pol sfx root st data).digest
    ∧ (storeImage hash e2 dims keep imax pol sfx root
          (storeImage hash e1 dims keep imax pol sfx root st data).fs data).wroteBlob
        = false
    ∧ (storeImage hash e2 dims keep imax pol sfx root
          (storeImage hash e1 dims keep imax pol sfx root st data).fs data).fs.blobs
        = (storeImage hash e1 dims keep imax pol sfx root st data).fs.blobs
    ∧ (∃ m : Manifest,
        storeLookup (storeImage hash e2 dims keep imax pol sfx root
            (storeImage hash e1 dims keep imax pol sfx root st data).fs data).fs.manifests
          (hash data) = some m
        ∧ m.sha1 = hash data)
    ∧ ((storeLookup (storeImage hash e2 dims keep imax pol sfx root
            (storeImage hash e1 dims keep imax pol sfx root st data).fs data).fs.audits
          (hash data)).getD []).length
        = ((storeLookup (storeImage hash e1 dims keep imax pol sfx root
            st data).fs.audits (hash data)).getD []).length + 1 := by
  obtain ⟨hd1, hw1, hb1, hm1, ha1⟩ :=
    storeImage_unfold hash e1 dims keep imax pol sfx root st data
  have hblob1 : (storeLookup
      (storeImage hash e1 dims keep imax pol sfx root st data).fs.blobs
      (hash data)).isSome = true := by
    rw [hb1]
    by_cases hB : (storeLookup st.blobs (hash data)).isSome
    · simp [hB]
    · simp [hB, storeLookup_insert]
  obtain ⟨hd2, hw2, hb2, hm2, ha2⟩ :=
    storeImage_unfold hash e2 dims keep imax pol sfx root
      (storeImage hash e1 dims keep imax pol sfx root st data).fs data
  refine ⟨hd1, ?_, ?_, ?_, ?_, ?_⟩
  · rw [hd1, (storeImage_unfold hash e2 dims keep imax pol sfx root st data).1]
  · rw [hw2, hblob1]
    rfl
  · rw [hb2, if_pos hblob1]
  · exact ⟨_, by rw [hm2, storeLookup_insert], rfl⟩
  · rw [ha2, storeLookup_insert]
    simp

end AgentMail

namespace AgentMail

/-- C1: the conflict predicate, on an unreleased existing lease, is true
iff the holders differ, at least one side is exclusive, and the patterns
overlap (the existing pattern matches the candidate path as a glob, or the
candidate path matches the existing pattern as a glob, or the strings are
identical); two shared leases never conflict and a holder never conflicts
with its own lease. -/
theorem claims_conflict_spec (e : Claim) (p : String) (x : Bool) (aid : Nat)
    (h : e.released_ts = none) :
    (claimsConflict e p x aid = true ↔
      (e.agent_id ≠ aid ∧ (e.exclusive = true ∨ x = true) ∧
        (fnmatchcase p e.path_pattern = true ∨ fnmatchcase e.path_pattern p = true ∨
          e.path_pattern = p)))
    ∧ (e.exclusive = false → x = false → claimsConflict e p x aid = false)
    ∧ (e.agent_id = aid → claimsConflict e p x aid = false) := by
  unfold claimsConflict
  rw [h]
  simp only [Option.isSome_none, Bool.false_eq_true, if_false]
  by_cases ha : e.agent_id = aid
  · simp [ha]
  · cases hx : e.exclusive <;> cases hy : x <;>
      simp [ha, hx, hy, Bool.or_eq_true, decide_eq_true_eq, or_assoc]

/-- Witness for C1 at a concrete input: agent 1's exclusive request for
`src/app.py` conflicts with agent 2's active exclusive lease on
`src/*.py`. -/
theorem claims_conflict_spec_witness :
    claimsConflict exClaimBlue "src/app.py" true 1 = true :=
  (claims_conflict_spec exClaimBlue "src/app.py" true 1 rfl).1.mpr (by decide)

end AgentMail
